import Mathlib

/-!
Verification of the option-resolution engine (`OptionManager`) of an
ECharts-style charting library against its natural-language specification.

The development shallowly embeds the TypeScript sources: configuration
documents become a JSON-like inductive `Value`; the stateful
`OptionManager` becomes a record threaded explicitly through the
operations `setOption`, `mountOption` and `getMediaOption`; the helper
functions `parseRawOption`, `applyMediaQuery`, `compare`, `indicesEquals`
and `mergeOption` are translated directly.  Library helpers that are not
part of the given sources (the `zrender` deep merge, `normalizeToArray`,
`mappingToExists`, the component-class registry) are modelled from the
specification and marked as such in their doc comments.
-/

namespace EChartsOM

/-- A JSON-compatible configuration value, as manipulated by the option
manager.  Objects are ordered association lists (mirroring JS object key
order); `null` stands for an explicit JS `null`/`undefined` value. -/
inductive Value where
  | null : Value
  | num : ℚ → Value
  | str : String → Value
  | bool : Bool → Value
  | arr : List Value → Value
  | obj : List (String × Value) → Value

/-- JS truthiness of a value: `null`, `0`, `""` and `false` are falsy;
arrays and objects (even empty ones) are truthy. -/
def truthy : Value → Bool
  | Value.null => false
  | Value.num q => q != 0
  | Value.str s => s != ""
  | Value.bool b => b
  | Value.arr _ => true
  | Value.obj _ => true

/-- Truthiness of an optional value; an absent property is falsy. -/
def truthyO : Option Value → Bool
  | none => false
  | some v => truthy v

/-- Property lookup on an object's field list (first occurrence wins,
mirroring unique JS object keys). -/
def getField : List (String × Value) → String → Option Value
  | [], _ => none
  | (k, v) :: rest, key => if k = key then some v else getField rest key

/-- Property assignment: update an existing key in place (keeping its
position, as JS objects do) or append a new key at the end. -/
def setField : List (String × Value) → String → Value → List (String × Value)
  | [], key, v => [(key, v)]
  | (k, w) :: rest, key, v =>
      if k = key then (k, v) :: rest else (k, w) :: setField rest key v

/-- The field list of a value; non-objects have no fields. -/
def fieldsOf : Value → List (String × Value)
  | Value.obj fs => fs
  | _ => []

/-- Property lookup on an arbitrary value (missing on non-objects,
like JS property access on primitives yielding `undefined`). -/
def getFieldV (v : Value) (key : String) : Option Value :=
  getField (fieldsOf v) key

/-- Property assignment on an arbitrary value; assignment to a
non-object is a silent no-op (JS non-strict mode). -/
def setFieldV (v : Value) (key : String) (x : Value) : Value :=
  match v with
  | Value.obj fs => Value.obj (setField fs key x)
  | other => other

mutual

/-- Modelled from the spec: the deep merge used for plain
(non-collection) keys — `zrender`'s `merge(target, source, overwrite)`
with `overwrite = true`, a dependency whose source is not among the
given files.  Per the spec's DeepMerger contract: when both sides are
plain nested objects the merge recurses field by field; otherwise the
incoming value overwrites the existing one wholesale (arrays are not
merged element-wise). -/
def zrMerge : Value → Value → Value
  | Value.obj tf, Value.obj sf => Value.obj (zrMergeFields tf sf)
  | _, s => s

/-- Field-by-field walk of the source object for `zrMerge`: each source
field is merged into the target's field of the same name (or adopted
when the target lacks it). -/
def zrMergeFields : List (String × Value) → List (String × Value) → List (String × Value)
  | tf, [] => tf
  | tf, (k, sv) :: rest =>
      let merged := match getField tf k with
        | some tv => zrMerge tv sv
        | none => sv
      zrMergeFields (setField tf k merged) rest

end

/-- `zrMerge` when the target key may be absent:
`merge(undefined, source, true)` returns a copy of the source. -/
def zrMergeO : Option Value → Value → Value
  | none, s => s
  | some t, s => zrMerge t s

/-- Modelled from the spec: `normalizeToArray` (from the repository's
`util/model`, not among the given files).  Normalizes a component option
to an ordered sequence: a bare value counts as a one-element sequence,
an absent or null value as the empty sequence. -/
def normalizeToArray : Option Value → List Value
  | none => []
  | some Value.null => []
  | some (Value.arr xs) => xs
  | some v => [v]

/-- One slot of the array-reconciliation result: the surviving existing
item (if any) paired with the incoming item mapped onto it (if any). -/
structure MappingItem where
  exist : Option Value
  option : Option Value

/-- Modelled from the spec: the explicit identifier of a collection
entry is its `id` field (string-valued). -/
def idOf (v : Value) : Option String :=
  match getFieldV v "id" with
  | some (Value.str s) => some s
  | _ => none

/-- Place an incoming item, whose identifier is `cid`, into the first
still-unconsumed slot whose existing item carries the same identifier;
fails when no such slot exists. -/
def placeByIdAux (cid : String) (c : Value) : List MappingItem → Option (List MappingItem)
  | [] => none
  | item :: rest =>
      if item.option.isNone && (item.exist.bind idOf == some cid) then
        some ({ item with option := some c } :: rest)
      else
        match placeByIdAux cid c rest with
        | some rest' => some (item :: rest')
        | none => none

/-- Identifier-based placement of an incoming item; items without an
identifier are left for the positional pass. -/
def placeById (c : Value) (slots : List MappingItem) : Option (List MappingItem) :=
  match idOf c with
  | none => none
  | some cid => placeByIdAux cid c slots

/-- Positional fallback: pair the incoming item with the next
still-unconsumed slot, or append it as a brand-new slot at the end. -/
def placePositional (c : Value) : List MappingItem → List MappingItem
  | [] => [⟨none, some c⟩]
  | item :: rest =>
      if item.option.isNone then { item with option := some c } :: rest
      else item :: placePositional c rest

/-- Modelled from the spec: `mappingToExists` (ArrayReconciler, from the
repository's `util/model`, not among the given files).  Build one slot
per existing item, in existing order; each incoming item with an
identifier matching an existing item's identifier is paired into that
slot; the remaining incoming items fill, in order, the remaining
unpaired slots (positional fallback) and any leftover incoming items
are appended as new slots; existing items never consumed are preserved
standalone. -/
def pass1Step (st : List MappingItem × List Value) (c : Value) :
    List MappingItem × List Value :=
  match placeById c st.1 with
  | some s => (s, st.2)
  | none => (st.1, st.2 ++ [c])

/-- Modelled from the spec (continued): the identifier pass over the
incoming sequence followed by the positional pass over its leftovers. -/
def mappingToExists (ex inc : List Value) : List MappingItem :=
  let slots0 := ex.map (fun e => MappingItem.mk (some e) none)
  let pass1 := inc.foldl pass1Step (slots0, [])
  pass1.2.foldl (fun slots c => placePositional c slots) pass1.1

/-- Resolution of one reconciliation slot, as in `mergeOption`:
both present — merge incoming into existing; otherwise keep whichever
side exists. -/
def itemResolve : MappingItem → Value
  | ⟨some e, some o⟩ => zrMerge e o
  | ⟨some e, none⟩ => e
  | ⟨none, some o⟩ => o
  | ⟨none, none⟩ => Value.null

/-- The merged sequence produced for a reconcilable-collection key:
reconcile the two sequences and resolve every slot. -/
def mergedCollection (ex inc : List Value) : List Value :=
  (mappingToExists ex inc).map itemResolve

/-- `mergeOption(oldOption, newOption)` from the source: fold every
top-level key of the new option into the old option.  `null` values are
skipped; keys registered as component classes go through array
reconciliation; all other keys go through the plain deep merge.  The
component-class registry (`ComponentModel.hasClass`) is not among the
given files and is modelled from the spec as an injected predicate
`hasClass` on key names. -/
def mergeOption (hasClass : String → Bool) (oldOption newOption : Value) : Value :=
  (fieldsOf newOption).foldl
    (fun old kv =>
      match kv.2 with
      | Value.null => old
      | newCpt =>
          if hasClass kv.1 then
            let oldArr := normalizeToArray (getFieldV old kv.1)
            let newArr := normalizeToArray (some newCpt)
            setFieldV old kv.1 (Value.arr (mergedCollection oldArr newArr))
          else
            setFieldV old kv.1 (zrMergeO (getFieldV old kv.1) newCpt))
    oldOption

/-- An external preprocessing function: it receives a fragment and the
`isNew` (first-submission) flag and returns the normalized fragment
(the source mutates the fragment in place). -/
def Preprocessor := Value → Bool → Value

/-- Apply the ordered list of preprocessors to one fragment, forwarding
the `isNew` flag, as `parseRawOption` does for every produced fragment. -/
def applyPre (pre : List Preprocessor) (isNew : Bool) (v : Value) : Value :=
  pre.foldl (fun acc f => f acc isNew) v

/-- Replace a media unit's `option` fragment by its preprocessed form;
a unit without an `option` field is left untouched. -/
def preprocessMediaUnit (pre : List Preprocessor) (isNew : Bool) (m : Value) : Value :=
  match getFieldV m "option" with
  | some o => setFieldV m "option" (applyPre pre isNew o)
  | none => m

/-- The result of splitting one submitted document, as in the source's
`ParsedRawOption`: the base layer, the ordered timeline layers, the
default media unit (if any) and the ordered predicated media units. -/
structure ParsedRawOption where
  baseOption : Value
  timelineOptions : List Value
  mediaDefault : Option Value
  mediaList : List Value

/-- A media entry that `parseRawOption` considers at all: the source's
guard `singleMedia && singleMedia.option` — a truthy entry with a
truthy `option` fragment.  An eligible entry joins the media list when
it has a truthy `query` and otherwise becomes the default unit if none
has been recorded yet; every other entry is dropped. -/
def mediaEligible (m : Value) : Bool :=
  truthy m && truthyO (getFieldV m "option")

/-- One step of the media scan (loop body of the source's
`each(media, ...)`). -/
def scanStep (st : Option Value × List Value) (m : Value) : Option Value × List Value :=
  if mediaEligible m then
    if truthyO (getFieldV m "query") then (st.1, st.2 ++ [m])
    else if st.1.isNone then (some m, st.2)
    else st
  else st

/-- The full media scan of `parseRawOption` over the `media` array. -/
def scanMedia (entries : List Value) : Option Value × List Value :=
  entries.foldl scanStep (none, [])

/-- `parseRawOption(rawOption, optionPreprocessorFuncs, isNew)` from the
source: split a submitted document into base / timeline / media parts.
The base is `rawOption.baseOption` when truthy, an empty object when
timeline or media parts are present without one, and the whole document
otherwise; a legacy `timeline` field is attached onto the base when the
base has none; every produced fragment is passed through the
preprocessors (the default media unit's fragment is not, mirroring the
source's preprocessing list). -/
def parseRawOption (raw : Value) (pre : List Preprocessor) (isNew : Bool) :
    ParsedRawOption :=
  let fields := fieldsOf raw
  let timelineOpt := getField fields "timeline"
  let b0 : Option Value :=
    if truthyO (getField fields "baseOption") then getField fields "baseOption" else none
  let hasTl := truthyO timelineOpt || truthyO (getField fields "options")
  let b1 := if hasTl then some (b0.getD (Value.obj [])) else b0
  let timelineOptions : List Value :=
    if hasTl then
      match getField fields "options" with
      | some (Value.arr xs) => xs
      | _ => []
    else []
  let mediaField :=
    if truthyO (getField fields "media") then getField fields "media" else none
  let b2 := if mediaField.isSome then some (b1.getD (Value.obj [])) else b1
  let scanned :=
    match mediaField with
    | some (Value.arr entries) => scanMedia entries
    | _ => (none, [])
  let base0 := b2.getD raw
  let base1 :=
    if truthyO (getFieldV base0 "timeline") then base0
    else
      match timelineOpt with
      | some t => setFieldV base0 "timeline" t
      | none => base0
  { baseOption := applyPre pre isNew base1
    timelineOptions := timelineOptions.map (applyPre pre isNew)
    mediaDefault := scanned.1
    mediaList := scanned.2.map (preprocessMediaUnit pre isNew) }

/-- The retained state of the orchestrator, as in the source's
`OptionManager` fields (the `ExtensionAPI` is replaced by explicit
viewport arguments to `getMediaOption`). -/
structure OptionManager where
  timelineOptions : List Value := []
  mediaList : List Value := []
  mediaDefault : Option Value := none
  currentMediaIndices : List Int := []
  optionBackup : Option ParsedRawOption := none
  newBaseOption : Option Value := none

/-- A freshly constructed manager, before any submission. -/
def emptyManager : OptionManager := {}

/-- `OptionManager.setOption` from the source: parse the submission
(`isNew` iff no backup exists yet); on the first submission adopt the
parsed result as the backup; on later submissions merge the new base
into the backup's base and replace the backup's timeline options, media
list and media default — each only when the new submission supplies a
non-empty (resp. present) one.  `_newBaseOption` always becomes the
newly parsed base. -/
def setOption (hasClass : String → Bool) (m : OptionManager) (raw : Value)
    (pre : List Preprocessor) : OptionManager :=
  let parsed := parseRawOption raw pre m.optionBackup.isNone
  match m.optionBackup with
  | some ob =>
      { m with
        newBaseOption := some parsed.baseOption
        optionBackup := some
          { baseOption := mergeOption hasClass ob.baseOption parsed.baseOption
            timelineOptions :=
              if parsed.timelineOptions.isEmpty then ob.timelineOptions
              else parsed.timelineOptions
            mediaList :=
              if parsed.mediaList.isEmpty then ob.mediaList else parsed.mediaList
            mediaDefault :=
              if parsed.mediaDefault.isSome then parsed.mediaDefault
              else ob.mediaDefault } }
  | none =>
      { m with
        newBaseOption := some parsed.baseOption
        optionBackup := some parsed }

/-- `OptionManager.mountOption(isRecreate)` from the source: copy the
backup's timeline/media layers into the live fields, reset the media
selection state, and return (a deep copy of) the backup's base in
recreate mode, and of `_newBaseOption` otherwise.  Deep copies are
identities in this pure embedding.  Calling it before any submission
(where the source would fail on an absent backup) returns `null`. -/
def mountOption (m : OptionManager) (isRecreate : Bool) : OptionManager × Value :=
  match m.optionBackup with
  | none => (m, Value.null)
  | some ob =>
      ({ m with
          timelineOptions := ob.timelineOptions
          mediaList := ob.mediaList
          mediaDefault := ob.mediaDefault
          currentMediaIndices := [] },
        if isRecreate then ob.baseOption else m.newBaseOption.getD Value.null)

/-- The attribute-name pattern of a media-query constraint: the regular
expression `(min|max)?(.+)` followed by the source's guard that both
groups matched.  A key carrying a `min`/`max` prefix with a non-empty
remainder yields the operator and the lower-cased remaining attribute;
any other key yields nothing (and the constraint is skipped). -/
def parseAttr (attr : String) : Option (String × String) :=
  match attr.data with
  | 'm' :: 'i' :: 'n' :: c :: rest => some ("min", ⟨(c :: rest).map Char.toLower⟩)
  | 'm' :: 'a' :: 'x' :: c :: rest => some ("max", ⟨(c :: rest).map Char.toLower⟩)
  | _ => none

/-- The realized viewport metric for a base attribute: `width`,
`height`, or their ratio for `aspectratio`; unknown attributes have no
realized value (JS reads `undefined` off the lookup map). -/
def realValue (attr : String) (w h : ℚ) : Option ℚ :=
  if attr = "width" then some w
  else if attr = "height" then some h
  else if attr = "aspectratio" then some (w / h)
  else none

/-- `compare(real, expect, operator)` from the source: `min` means
realized ≥ target, `max` means realized ≤ target, anything else exact
equality.  An undefined realized value (unknown attribute) compares
false under all three operators, as JS `NaN` comparisons do. -/
def compare (real : Option ℚ) (expect : ℚ) (operator : String) : Bool :=
  match real with
  | none => false
  | some r =>
      if operator = "min" then decide (expect ≤ r)
      else if operator = "max" then decide (r ≤ expect)
      else decide (r = expect)

/-- One constraint step of `applyMediaQuery` (loop body of the
source's `each(query, ...)`): a constraint whose attribute does not fit
the pattern is skipped; a fitting constraint clears the flag when the
comparison fails. -/
def amqStep (w h : ℚ) (applicatable : Bool) (kv : String × ℚ) : Bool :=
  match parseAttr kv.1 with
  | none => applicatable
  | some pr =>
      if compare (realValue pr.2 w h) kv.2 pr.1 then applicatable else false

/-- `applyMediaQuery(query, ecWidth, ecHeight)` from the source: start
from `true` and run every constraint through `amqStep`. -/
def applyMediaQuery (query : List (String × ℚ)) (w h : ℚ) : Bool :=
  query.foldl (amqStep w h) true

/-- `indicesEquals(indices1, indices2)` from the source: compare the
comma-joined string renderings of the two index lists. -/
def indicesEquals (indices1 indices2 : List Int) : Bool :=
  String.intercalate "," (indices1.map Int.repr) ==
    String.intercalate "," (indices2.map Int.repr)

/-- Decoding step for decimal digit characters: extend the number
decoded so far by one more digit character.  Used to show that the
string rendering of an index list determines the list. -/
def decodeAux (acc : ℕ) (c : Char) : ℕ := acc * 10 + (c.toNat - 48)

/-- The comma-prefixed tail of a character-level comma join. -/
def tailJoin : List (List Char) → List Char
  | [] => []
  | x :: xs => ',' :: (x ++ tailJoin xs)

/-- Character-level form of joining character lists with commas,
mirroring `String.intercalate ","` on the underlying data. -/
def joinData : List (List Char) → List Char
  | [] => []
  | x :: xs => x ++ tailJoin xs

/-- The numeric constraints of a media unit's `query` object (the
`MediaQuery` type of the source is a map from attribute names to
numbers). -/
def mediaQueryOf (m : Value) : List (String × ℚ) :=
  match getFieldV m "query" with
  | some (Value.obj fs) =>
      fs.filterMap (fun kv =>
        match kv.2 with
        | Value.num q => some (kv.1, q)
        | _ => none)
  | _ => []

/-- The fragment selected by one index of the media selection: `-1`
selects the default unit's `option`, any other index the corresponding
predicated unit's `option`. -/
def mediaFragment (mediaList : List Value) (mediaDefault : Option Value)
    (idx : Int) : Value :=
  if idx = -1 then (getFieldV (mediaDefault.getD Value.null) "option").getD Value.null
  else (getFieldV ((mediaList[idx.toNat]?).getD Value.null) "option").getD Value.null

/-- The newly computed media selection: the indices of the predicated
units whose query matches the viewport, in document order, or the
sentinel `[-1]` when none match and a default unit exists. -/
def computeMediaIndices (mediaList : List Value) (mediaDefault : Option Value)
    (w h : ℚ) : List Int :=
  let matched :=
    ((List.range mediaList.length).filter
        (fun i => applyMediaQuery (mediaQueryOf ((mediaList[i]?).getD Value.null)) w h)).map
      Int.ofNat
  if matched.isEmpty && mediaDefault.isSome then [-1] else matched

/-- `OptionManager.getMediaOption` from the source, with the viewport
passed explicitly instead of read off the `ExtensionAPI`: return
nothing when no media is defined; otherwise compute the selection,
record it, and return the selected fragments only when the selection is
non-empty and differs from the previously recorded one. -/
def getMediaOption (m : OptionManager) (w h : ℚ) : OptionManager × List Value :=
  if m.mediaList.isEmpty && m.mediaDefault.isNone then (m, [])
  else
    let indices := computeMediaIndices m.mediaList m.mediaDefault w h
    let result :=
      if !indices.isEmpty && !indicesEquals indices m.currentMediaIndices then
        indices.map (mediaFragment m.mediaList m.mediaDefault)
      else []
    ({ m with currentMediaIndices := indices }, result)

/-- Submit a whole sequence of documents in order, starting from a
given manager state. -/
def submitAll (hasClass : String → Bool) (pre : List Preprocessor)
    (docs : List Value) (m : OptionManager) : OptionManager :=
  docs.foldl (fun st d => setOption hasClass st d pre) m

/-- A value is a scalar when it is neither an array nor an object. -/
def isScalarV : Value → Bool
  | Value.arr _ => false
  | Value.obj _ => false
  | _ => true

/-- A scalar-only document: an object all of whose field values are
scalars. -/
def scalarOnly : Value → Bool
  | Value.obj fs => fs.all (fun kv => isScalarV kv.2)
  | _ => false

/-! Concrete example values used by the counterexamples and witnesses. -/

/-- A component-class registry with no registered classes. -/
def noClassEx : String → Bool := fun _ => false

/-- A component-class registry in which only `series` is a
reconcilable-collection key. -/
def hcSeries : String → Bool := fun s => s == "series"

/-- First-submission document `{a:1, b:2}`. -/
def D1ex : Value := Value.obj [("a", Value.num 1), ("b", Value.num 2)]

/-- Second-submission document `{b:3}`. -/
def D2ex : Value := Value.obj [("b", Value.num 3)]

/-- Collection entry `{id:'x', v:1}`. -/
def X1ex : Value := Value.obj [("id", Value.str "x"), ("v", Value.num 1)]

/-- Collection entry `{id:'y', v:2}`. -/
def Y2ex : Value := Value.obj [("id", Value.str "y"), ("v", Value.num 2)]

/-- Incoming collection entry `{id:'x', v:9}`. -/
def X9ex : Value := Value.obj [("id", Value.str "x"), ("v", Value.num 9)]

/-- A document with a base and a two-element timeline sequence. -/
def T1ex : Value :=
  Value.obj
    [("baseOption", Value.obj [("a", Value.num 1)]),
     ("options", Value.arr [Value.obj [("t", Value.num 1)], Value.obj [("t", Value.num 2)]])]

/-- A later document with a base and no timeline sequence. -/
def T2ex : Value := Value.obj [("baseOption", Value.obj [("a", Value.num 2)])]

/-- A predicated media unit `{query:{minWidth:800}, option:{o:1}}`. -/
def MUex : Value :=
  Value.obj
    [("query", Value.obj [("minWidth", Value.num 800)]),
     ("option", Value.obj [("o", Value.num 1)])]

/-- A default media unit `{option:{d:1}}`. -/
def MDex : Value := Value.obj [("option", Value.obj [("d", Value.num 1)])]

/-- A manager holding one predicated media unit and a default unit,
with no selection recorded yet. -/
def mediaMgrEx : OptionManager :=
  { mediaList := [MUex], mediaDefault := some MDex }

/-! ## General lemmas about the state machine -/

/-- On a non-first submission, `setOption` merges the newly parsed base
into the backup's base and applies the replacement policy to the
timeline/media parts. -/
theorem setOption_backup_of_some (hc : String → Bool) (m : OptionManager) (d : Value)
    (pre : List Preprocessor) (ob : ParsedRawOption) (h : m.optionBackup = some ob) :
    (setOption hc m d pre).optionBackup = some
      { baseOption := mergeOption hc ob.baseOption (parseRawOption d pre false).baseOption
        timelineOptions :=
          if (parseRawOption d pre false).timelineOptions.isEmpty then ob.timelineOptions
          else (parseRawOption d pre false).timelineOptions
        mediaList :=
          if (parseRawOption d pre false).mediaList.isEmpty then ob.mediaList
          else (parseRawOption d pre false).mediaList
        mediaDefault :=
          if (parseRawOption d pre false).mediaDefault.isSome then
            (parseRawOption d pre false).mediaDefault
          else ob.mediaDefault } := by
  obtain ⟨tl, ml, md, ci, obk, nb⟩ := m
  simp only at h
  subst h
  simp [setOption]

/-- Submitting any further sequence of documents folds each newly
parsed base into the backup's base, in submission order. -/
theorem submitAll_backup (hc : String → Bool) (pre : List Preprocessor) :
    ∀ (ds : List Value) (m : OptionManager) (ob : ParsedRawOption),
      m.optionBackup = some ob →
      ∃ ob', (submitAll hc pre ds m).optionBackup = some ob' ∧
        ob'.baseOption =
          ds.foldl (fun acc e => mergeOption hc acc (parseRawOption e pre false).baseOption)
            ob.baseOption := by
  intro ds
  induction ds with
  | nil => exact fun m ob h => ⟨ob, h, rfl⟩
  | cons d ds ih =>
      intro m ob h
      obtain ⟨ob', h1, h2⟩ :=
        ih (setOption hc m d pre) _ (setOption_backup_of_some hc m d pre ob h)
      exact ⟨ob', h1, by rw [h2, List.foldl_cons]⟩

/-- The first submission stores the parsed document as the backup. -/
theorem setOption_backup_first (hc : String → Bool) (d : Value) (pre : List Preprocessor) :
    (setOption hc emptyManager d pre).optionBackup = some (parseRawOption d pre true) := by
  simp [setOption, emptyManager]

/-- After any submission, `mountOption false` returns exactly the base
parsed from that submission alone. -/
theorem mountOption_false_after_setOption (hc : String → Bool) (m : OptionManager)
    (d : Value) (pre : List Preprocessor) :
    (mountOption (setOption hc m d pre) false).2 =
      (parseRawOption d pre m.optionBackup.isNone).baseOption := by
  cases h : m.optionBackup <;> simp [setOption, mountOption, h]

/-! ## C1 -/

/-- C1 counterexample: after submitting `{a:1, b:2}` and then `{b:3}`,
`mountOption true` (recreate mode) returns the cumulative merge
`{a:1, b:3}`, not the base `{a:1, b:2}` parsed from the first
submission alone — the backup's base is re-merged on every later
submission, contrary to the claim. -/
theorem mountRecreate_cex :
    (mountOption (setOption noClassEx (setOption noClassEx emptyManager D1ex []) D2ex [])
        true).2 =
      Value.obj [("a", Value.num 1), ("b", Value.num 3)] ∧
    (parseRawOption D1ex [] true).baseOption = Value.obj [("a", Value.num 1), ("b", Value.num 2)] ∧
    Value.obj [("a", Value.num 1), ("b", Value.num 3)] ≠
      Value.obj [("a", Value.num 1), ("b", Value.num 2)] := by
  refine ⟨rfl, rfl, ?_⟩
  simp

/-- C1 (amended): for any sequence of submissions `D1..Dn`,
`mountOption true` returns the backup's base, which is the cumulative
merge, in submission order, of every submitted base layer — the
first-submission base with each later parsed base folded into it. -/
theorem mountRecreate_cumulative (hc : String → Bool) (pre : List Preprocessor)
    (d : Value) (ds : List Value) :
    (mountOption (submitAll hc pre (d :: ds) emptyManager) true).2 =
      ds.foldl (fun acc e => mergeOption hc acc (parseRawOption e pre false).baseOption)
        (parseRawOption d pre true).baseOption := by
  obtain ⟨ob', h1, h2⟩ :=
    submitAll_backup hc pre ds (setOption hc emptyManager d pre) _
      (setOption_backup_first hc d pre)
  have hs : submitAll hc pre (d :: ds) emptyManager =
      submitAll hc pre ds (setOption hc emptyManager d pre) := rfl
  rw [hs]
  simp [mountOption, h1, h2]

/-! ## C2 -/

/-- C2 counterexample: after submitting `{a:1, b:2}` and then `{b:3}`,
`mountOption false` returns `{b:3}` — the base parsed from the latest
submission alone — and not the cumulative merge `{a:1, b:3}` of every
base submitted so far, contrary to the claim. -/
theorem mountFalse_cex :
    (mountOption (setOption noClassEx (setOption noClassEx emptyManager D1ex []) D2ex [])
        false).2 =
      Value.obj [("b", Value.num 3)] ∧
    mergeOption noClassEx (parseRawOption D1ex [] true).baseOption
        (parseRawOption D2ex [] false).baseOption =
      Value.obj [("a", Value.num 1), ("b", Value.num 3)] ∧
    Value.obj [("b", Value.num 3)] ≠ Value.obj [("a", Value.num 1), ("b", Value.num 3)] := by
  refine ⟨rfl, rfl, ?_⟩
  simp

/-- C2 (amended): after every submission, `mountOption false` returns a
deep copy of the base layer parsed from that (latest) submission alone
(`_newBaseOption`), not the cumulative merge; the cumulative merge is
what `mountOption true` returns. -/
theorem mountFalse_latest_base (hc : String → Bool) (m : OptionManager) (d : Value)
    (pre : List Preprocessor) :
    (mountOption (setOption hc m d pre) false).2 =
      (parseRawOption d pre m.optionBackup.isNone).baseOption :=
  mountOption_false_after_setOption hc m d pre

/-! ## C9 -/

/-- C9 counterexample: submitting the empty document `{}` — which has
no derivable base content — does not fail: the backup silently becomes
the empty tree and `mountOption false` resolves to the empty tree. -/
theorem setOption_empty_cex :
    (setOption noClassEx emptyManager (Value.obj []) []).optionBackup =
      some
        { baseOption := Value.obj []
          timelineOptions := []
          mediaDefault := none
          mediaList := [] } ∧
    (mountOption (setOption noClassEx emptyManager (Value.obj []) []) false).2 =
      Value.obj [] :=
  ⟨rfl, rfl⟩

/-- C9 (amended): `setOption` never rejects a submission.
`parseRawOption` always derives a base, falling back to the whole
submitted document when no base field, timeline part or media part is
recognized — so a document with no base content silently resolves to
itself (the empty tree for `{}`), and the manager state is mutated
normally (a backup is always present afterwards). -/
theorem setOption_never_rejects (hc : String → Bool) (m : OptionManager) (raw : Value)
    (b : Bool)
    (h1 : truthyO (getField (fieldsOf raw) "baseOption") = false)
    (h2 : getField (fieldsOf raw) "timeline" = none)
    (h3 : truthyO (getField (fieldsOf raw) "options") = false)
    (h4 : truthyO (getField (fieldsOf raw) "media") = false) :
    (parseRawOption raw [] b).baseOption = raw ∧
    ((setOption hc m raw []).optionBackup).isSome := by
  have h2' : truthyO (getField (fieldsOf raw) "timeline") = false := by rw [h2]; rfl
  constructor
  · simp [parseRawOption, h1, h2, h2', h3, h4, getFieldV, applyPre,
      show truthyO none = false from rfl]
  · cases h : m.optionBackup <;> simp [setOption, h]

/-- C9 witness: the amended statement at the concrete empty document. -/
theorem setOption_never_rejects_witness :
    (parseRawOption (Value.obj []) [] true).baseOption = Value.obj [] ∧
    ((setOption noClassEx emptyManager (Value.obj []) []).optionBackup).isSome :=
  setOption_never_rejects noClassEx emptyManager (Value.obj []) true rfl rfl rfl rfl

/-! ## Media-query evaluation lemmas (C3, C4) -/

/-- A constraint step on an already-cleared flag never sets it back. -/
theorem amqStep_false (w h : ℚ) (kv : String × ℚ) : amqStep w h false kv = false := by
  unfold amqStep
  cases parseAttr kv.1 <;> simp

/-- Once the flag is cleared, the rest of the constraint walk keeps it
cleared. -/
theorem foldl_amqStep_false (w h : ℚ) :
    ∀ q : List (String × ℚ), q.foldl (amqStep w h) false = false := by
  intro q
  induction q with
  | nil => rfl
  | cons kv q ih => rw [List.foldl_cons, amqStep_false]; exact ih

/-- A constraint whose attribute does not fit the pattern leaves the
flag untouched. -/
theorem amqStep_skip (w h : ℚ) (acc : Bool) (kv : String × ℚ)
    (hp : parseAttr kv.1 = none) : amqStep w h acc kv = acc := by
  unfold amqStep
  rw [hp]

/-- C3 (amended): a constraint whose attribute carries no `min`/`max`
prefix is skipped entirely — the query evaluates exactly as if the
constraint were removed, so `{height:600}` matches every viewport
rather than requiring exact equality (the exact-equality branch of
`compare` is unreachable from `applyMediaQuery`). -/
theorem applyMediaQuery_unprefixed_ignored (q1 q2 : List (String × ℚ)) (attr : String)
    (v w h : ℚ) (hp : parseAttr attr = none) :
    applyMediaQuery (q1 ++ (attr, v) :: q2) w h = applyMediaQuery (q1 ++ q2) w h := by
  unfold applyMediaQuery
  rw [List.foldl_append, List.foldl_append, List.foldl_cons, amqStep_skip w h _ _ hp]

/-- C3 witness: the unprefixed constraint `{height:600}` is dropped
from a query at viewport height 599. -/
theorem applyMediaQuery_unprefixed_ignored_witness :
    applyMediaQuery ([] ++ ("height", 600) :: []) 100 599 = applyMediaQuery ([] ++ []) 100 599 :=
  applyMediaQuery_unprefixed_ignored [] [] "height" 600 100 599 rfl

/-- C3 counterexample: the query `{height:600}` matches at height 599
(the claim says only height 600 matches). -/
theorem applyMediaQuery_exact_cex :
    applyMediaQuery [("height", 600)] 100 599 = true ∧
    applyMediaQuery [("height", 600)] 100 601 = true := ⟨rfl, rfl⟩

/-- C4 (amended): an attribute that does carry a `min`/`max` prefix but
whose base attribute is not `width`/`height`/`aspectratio` is *not*
ignored: its comparison runs against an undefined realized metric and
fails, so the constraint forces the whole query not to match. -/
theorem applyMediaQuery_unknown_metric_blocks (q : List (String × ℚ)) (attr : String)
    (v w h : ℚ) (op ra : String) (hp : parseAttr attr = some (op, ra))
    (hr : realValue ra w h = none) :
    applyMediaQuery ((attr, v) :: q) w h = false := by
  unfold applyMediaQuery
  rw [List.foldl_cons]
  have hstep : amqStep w h true (attr, v) = false := by
    simp [amqStep, hp, hr, compare]
  rw [hstep]
  exact foldl_amqStep_false w h q

/-- C4 witness: the amended statement at the concrete constraint
`{minFoo:1}`. -/
theorem applyMediaQuery_unknown_metric_blocks_witness :
    applyMediaQuery [("minFoo", 1)] 800 600 = false :=
  applyMediaQuery_unknown_metric_blocks [] "minFoo" 1 800 600 "min" "foo" rfl rfl

/-- C4 counterexample: the unparseable-by-the-spec's-grammar attribute
`minFoo` blocks matching — the query `{minFoo:1}` never matches, even
though the empty query matches the same viewport (the claim says such a
constraint never blocks the query). -/
theorem minFoo_blocks_cex :
    applyMediaQuery [("minFoo", 1)] 800 600 = false ∧
    applyMediaQuery [] 800 600 = true := ⟨rfl, rfl⟩

/-! ## C7: replacement policy for timeline and media parts -/

/-- C7: on every non-first submission, the retained timeline sequence
is replaced wholesale iff the newly parsed timeline sequence is
non-empty; likewise the media list iff non-empty and the media default
iff present; each replaces independently, and an empty/absent part
leaves the previously retained value untouched. -/
theorem setOption_replacement_policy (hc : String → Bool) (m : OptionManager) (d : Value)
    (pre : List Preprocessor) (ob : ParsedRawOption) (h : m.optionBackup = some ob) :
    ∃ ob', (setOption hc m d pre).optionBackup = some ob' ∧
      (((parseRawOption d pre false).timelineOptions = [] →
          ob'.timelineOptions = ob.timelineOptions) ∧
        ((parseRawOption d pre false).timelineOptions ≠ [] →
          ob'.timelineOptions = (parseRawOption d pre false).timelineOptions)) ∧
      (((parseRawOption d pre false).mediaList = [] → ob'.mediaList = ob.mediaList) ∧
        ((parseRawOption d pre false).mediaList ≠ [] →
          ob'.mediaList = (parseRawOption d pre false).mediaList)) ∧
      (((parseRawOption d pre false).mediaDefault = none →
          ob'.mediaDefault = ob.mediaDefault) ∧
        ((parseRawOption d pre false).mediaDefault ≠ none →
          ob'.mediaDefault = (parseRawOption d pre false).mediaDefault)) := by
  refine ⟨_, setOption_backup_of_some hc m d pre ob h, ?_, ?_, ?_⟩
  · constructor
    · intro he
      simp [he]
    · intro he
      simp [List.isEmpty_iff, he]
  · constructor
    · intro he
      simp [he]
    · intro he
      simp [List.isEmpty_iff, he]
  · constructor
    · intro he
      simp [he]
    · intro he
      simp [Option.isSome_iff_ne_none, he]

/-- C7 witness: submitting a document with no timeline/media parts
after one whose timeline sequence has two entries leaves all three
retained parts untouched. -/
theorem setOption_replacement_policy_witness :
    ∃ ob', (setOption noClassEx (setOption noClassEx emptyManager T1ex []) T2ex
        []).optionBackup = some ob' ∧
      (((parseRawOption T2ex [] false).timelineOptions = [] →
          ob'.timelineOptions = (parseRawOption T1ex [] true).timelineOptions) ∧
        ((parseRawOption T2ex [] false).timelineOptions ≠ [] →
          ob'.timelineOptions = (parseRawOption T2ex [] false).timelineOptions)) ∧
      (((parseRawOption T2ex [] false).mediaList = [] →
          ob'.mediaList = (parseRawOption T1ex [] true).mediaList) ∧
        ((parseRawOption T2ex [] false).mediaList ≠ [] →
          ob'.mediaList = (parseRawOption T2ex [] false).mediaList)) ∧
      (((parseRawOption T2ex [] false).mediaDefault = none →
          ob'.mediaDefault = (parseRawOption T1ex [] true).mediaDefault) ∧
        ((parseRawOption T2ex [] false).mediaDefault ≠ none →
          ob'.mediaDefault = (parseRawOption T2ex [] false).mediaDefault)) :=
  setOption_replacement_policy noClassEx (setOption noClassEx emptyManager T1ex [])
    T2ex [] (parseRawOption T1ex [] true) (setOption_backup_first noClassEx T1ex [])

/-! ## C8: idempotent remerge -/

/-- With no preprocessors the `isNew` flag is inert, so parsing is
independent of it. -/
theorem parseRawOption_pre_nil (d : Value) (b : Bool) :
    parseRawOption d [] b = parseRawOption d [] true := by
  have hap : ∀ b' : Bool, applyPre [] b' = fun v => v := fun b' => funext fun v => rfl
  have hmu : ∀ b' : Bool, preprocessMediaUnit [] b' = preprocessMediaUnit [] true := by
    intro b'
    funext mu
    unfold preprocessMediaUnit
    rw [hap b', hap true]
  unfold parseRawOption
  rw [hap b, hap true, hmu b]

/-- C8: for a scalar-only document `D`, submitting `D` once and
resolving the base with `mountOption false` yields the same
configuration tree as submitting `D` twice and resolving. -/
theorem setOption_idempotent_remerge (hc : String → Bool) (d : Value)
    (hscalar : scalarOnly d = true) :
    (mountOption (setOption hc emptyManager d []) false).2 =
      (mountOption (setOption hc (setOption hc emptyManager d []) d []) false).2 := by
  simp only [mountOption_false_after_setOption, parseRawOption_pre_nil]

/-- C8 witness: the idempotence statement at the concrete scalar-only
document `{a:1, b:2}`. -/
theorem setOption_idempotent_remerge_witness :
    (mountOption (setOption noClassEx emptyManager D1ex []) false).2 =
      (mountOption (setOption noClassEx (setOption noClassEx emptyManager D1ex []) D1ex [])
          false).2 :=
  setOption_idempotent_remerge noClassEx D1ex rfl

/-! ## C10: media parsing -/

/-- Updating a field to the value it already holds leaves the field
list unchanged. -/
theorem setField_self (fs : List (String × Value)) (k : String) (v : Value)
    (h : getField fs k = some v) : setField fs k v = fs := by
  induction fs with
  | nil => simp [getField] at h
  | cons kv rest ih =>
      by_cases hk : kv.1 = k
      · obtain ⟨k1, v1⟩ := kv
        simp_all [getField, setField]
      · obtain ⟨k1, v1⟩ := kv
        simp only at hk
        simp [getField, hk] at h
        simp [setField, hk, ih h]

/-- Updating a property to the value it already holds leaves the value
unchanged. -/
theorem setFieldV_self (m : Value) (k : String) (v : Value)
    (h : getFieldV m k = some v) : setFieldV m k v = m := by
  cases m <;> simp [getFieldV, fieldsOf, getField] at h <;> try rfl
  case obj fs => simp [setFieldV, setField_self fs k v h]

/-- With no preprocessors, an eligible media unit passes through the
preprocessing step unchanged. -/
theorem preprocessMediaUnit_nil_eligible (b : Bool) (m : Value)
    (he : mediaEligible m = true) : preprocessMediaUnit [] b m = m := by
  have := (Bool.and_eq_true _ _).mp he
  cases ho : getFieldV m "option" with
  | none => rw [ho] at this; simp [truthyO] at this
  | some o =>
      unfold preprocessMediaUnit
      rw [ho]
      exact setFieldV_self m "option" o ho

/-- The media scan, from an arbitrary accumulator: the default becomes
the accumulated default or else the first eligible predicate-less
entry, and the list collects every eligible predicated entry in
order. -/
theorem scanMedia_foldl (entries : List Value) :
    ∀ (d : Option Value) (l : List Value),
      entries.foldl scanStep (d, l) =
        ((match d with
          | some x => some x
          | none =>
              entries.find? fun m => mediaEligible m && !truthyO (getFieldV m "query")),
          l ++ entries.filter fun m => mediaEligible m && truthyO (getFieldV m "query")) := by
  induction entries with
  | nil => intro d l; cases d <;> simp
  | cons m rest ih =>
      intro d l
      rw [List.foldl_cons]
      by_cases he : mediaEligible m = true
      · by_cases hq : truthyO (getFieldV m "query") = true
        · have hstep : scanStep (d, l) m = (d, l ++ [m]) := by simp [scanStep, he, hq]
          rw [hstep, ih]
          cases d <;>
            simp [List.find?_cons, List.filter_cons, he, hq]
        · have hq' : truthyO (getFieldV m "query") = false := by
            revert hq; cases truthyO (getFieldV m "query") <;> simp
          cases d with
          | none =>
              have hstep : scanStep (none, l) m = (some m, l) := by
                simp [scanStep, he, hq']
              rw [hstep, ih]
              simp [List.find?_cons, List.filter_cons, he, hq']
          | some x =>
              have hstep : scanStep (some x, l) m = (some x, l) := by
                simp [scanStep, he, hq']
              rw [hstep, ih]
              simp [List.filter_cons, hq', he]
      · have he' : mediaEligible m = false := by
          revert he; cases mediaEligible m <;> simp
        have hstep : scanStep (d, l) m = (d, l) := by simp [scanStep, he']
        rw [hstep, ih]
        cases d <;> simp [List.find?_cons, List.filter_cons, he']

/-- C10: during parsing, a media entry joins the predicated media list
iff it is truthy with a truthy `option` and a truthy `query`, in
document order; the default unit is the first truthy entry with a
truthy `option` and no truthy `query`.  In particular an entry whose
`option` is absent is dropped entirely — never appended to the media
list nor retained as the default, even when it carries a query — and
among predicate-less entries with an `option` only the first becomes
the default. -/
theorem parseRawOption_media_partition (entries : List Value)
    (extra : List (String × Value)) (b : Bool) :
    (parseRawOption (Value.obj (("media", Value.arr entries) :: extra)) [] b).mediaList =
        entries.filter (fun m => mediaEligible m && truthyO (getFieldV m "query")) ∧
    (parseRawOption (Value.obj (("media", Value.arr entries) :: extra)) [] b).mediaDefault =
        entries.find? (fun m => mediaEligible m && !truthyO (getFieldV m "query")) := by
  have hmedia :
      getField (fieldsOf (Value.obj (("media", Value.arr entries) :: extra))) "media" =
        some (Value.arr entries) := by
    simp [fieldsOf, getField]
  have hscan := scanMedia_foldl entries none []
  constructor
  · have : (parseRawOption (Value.obj (("media", Value.arr entries) :: extra)) [] b).mediaList =
        (scanMedia entries).2.map (preprocessMediaUnit [] b) := by
      simp [parseRawOption, hmedia, truthyO, truthy]
    rw [this, scanMedia, hscan]
    simp only [List.nil_append]
    refine (List.map_congr_left ?_).trans (List.map_id _)
    intro x hx
    have hpx := List.of_mem_filter hx
    exact preprocessMediaUnit_nil_eligible b x ((Bool.and_eq_true _ _).mp hpx).1
  · have : (parseRawOption (Value.obj (("media", Value.arr entries) :: extra)) [] b).mediaDefault =
        (scanMedia entries).1 := by
      simp [parseRawOption, hmedia, truthyO, truthy]
    rw [this, scanMedia, hscan]

/-! ## C6: reconciliation preserves existing entries in place -/

/-- Identifier placement fills one slot's `option` but never changes
any slot's existing item. -/
theorem placeByIdAux_exist (cid : String) (c : Value) :
    ∀ (slots s' : List MappingItem), placeByIdAux cid c slots = some s' →
      s'.map MappingItem.exist = slots.map MappingItem.exist := by
  intro slots
  induction slots with
  | nil => intro s' h; simp [placeByIdAux] at h
  | cons item rest ih =>
      intro s' h
      unfold placeByIdAux at h
      split at h
      · cases h
        simp
      · cases hrec : placeByIdAux cid c rest with
        | none => rw [hrec] at h; cases h
        | some rest' =>
            rw [hrec] at h
            cases h
            simp [ih rest' hrec]

/-- Identifier placement preserves the sequence of existing items. -/
theorem placeById_exist (c : Value) (slots s' : List MappingItem)
    (h : placeById c slots = some s') :
    s'.map MappingItem.exist = slots.map MappingItem.exist := by
  unfold placeById at h
  cases hid : idOf c with
  | none => rw [hid] at h; cases h
  | some cid => rw [hid] at h; exact placeByIdAux_exist cid c slots s' h

/-- Positional placement preserves the sequence of existing items, at
most appending one brand-new slot (with no existing item) at the end. -/
theorem placePositional_exist (c : Value) :
    ∀ slots : List MappingItem, ∃ tail,
      (placePositional c slots).map MappingItem.exist =
        slots.map MappingItem.exist ++ tail ∧ ∀ x ∈ tail, x = none := by
  intro slots
  induction slots with
  | nil => exact ⟨[none], by simp [placePositional], by simp⟩
  | cons item rest ih =>
      by_cases hopt : item.option.isNone = true
      · exact ⟨[], by simp [placePositional, hopt], by simp⟩
      · obtain ⟨tail, htail, hall⟩ := ih
        refine ⟨tail, ?_, hall⟩
        simp [placePositional, hopt, htail]

/-- The identifier pass preserves the sequence of existing items. -/
theorem pass1_exist :
    ∀ (inc : List Value) (slots : List MappingItem) (rem : List Value),
      ((inc.foldl pass1Step (slots, rem)).1).map MappingItem.exist =
        slots.map MappingItem.exist := by
  intro inc
  induction inc with
  | nil => intro slots rem; rfl
  | cons c inc ih =>
      intro slots rem
      rw [List.foldl_cons]
      cases hp : placeById c slots with
      | none => rw [show pass1Step (slots, rem) c = (slots, rem ++ [c]) by
          simp [pass1Step, hp]]; exact ih slots (rem ++ [c])
      | some s =>
          rw [show pass1Step (slots, rem) c = (s, rem) by simp [pass1Step, hp]]
          rw [ih s rem, placeById_exist c slots s hp]

/-- The positional pass preserves the sequence of existing items and
only appends brand-new slots. -/
theorem pass2_exist :
    ∀ (rem : List Value) (slots : List MappingItem), ∃ tail,
      ((rem.foldl (fun s c => placePositional c s) slots).map MappingItem.exist) =
        slots.map MappingItem.exist ++ tail ∧ ∀ x ∈ tail, x = none := by
  intro rem
  induction rem with
  | nil => intro slots; exact ⟨[], by simp, by simp⟩
  | cons c rem ih =>
      intro slots
      obtain ⟨t1, h1, a1⟩ := placePositional_exist c slots
      obtain ⟨t2, h2, a2⟩ := ih (placePositional c slots)
      refine ⟨t1 ++ t2, ?_, ?_⟩
      · rw [List.foldl_cons, h2, h1, List.append_assoc]
      · intro x hx
        rcases List.mem_append.mp hx with hx | hx
        · exact a1 x hx
        · exact a2 x hx

/-- The reconciliation slots list the existing items first, in order,
followed only by slots for brand-new incoming items. -/
theorem mappingToExists_exist (ex inc : List Value) : ∃ tail,
    (mappingToExists ex inc).map MappingItem.exist = ex.map some ++ tail ∧
    ∀ x ∈ tail, x = none := by
  unfold mappingToExists
  obtain ⟨tail, htail, hall⟩ :=
    pass2_exist (inc.foldl pass1Step (ex.map (fun e => MappingItem.mk (some e) none), [])).2
      (inc.foldl pass1Step (ex.map (fun e => MappingItem.mk (some e) none), [])).1
  refine ⟨tail, ?_, hall⟩
  rw [htail, pass1_exist]
  simp [List.map_map, Function.comp]

/-- Slot `i` of the reconciliation carries exactly the `i`-th existing
item, for every valid `i`. -/
theorem mappingToExists_getElem (ex inc : List Value) (i : ℕ) (e : Value)
    (he : ex[i]? = some e) :
    ∃ item, (mappingToExists ex inc)[i]? = some item ∧ item.exist = some e := by
  obtain ⟨tail, hmap, -⟩ := mappingToExists_exist ex inc
  have hi : i < ex.length := by
    by_contra hl
    rw [List.getElem?_eq_none (Nat.le_of_not_lt hl)] at he
    cases he
  have hsome : ((mappingToExists ex inc).map MappingItem.exist)[i]? = some (some e) := by
    rw [hmap, List.getElem?_append_left (by simpa using hi), List.getElem?_map, he]
    rfl
  rw [List.getElem?_map] at hsome
  cases hitem : (mappingToExists ex inc)[i]? with
  | none => rw [hitem] at hsome; cases hsome
  | some item =>
      rw [hitem] at hsome
      exact ⟨item, rfl, Option.some_injective _ hsome⟩

/-- C6: merging an incoming sequence into an existing
reconcilable-collection key keeps every existing entry at its position:
the merged key holds the resolved reconciliation, whose length is at
least the existing length, and at every position of an existing entry
the result is that entry merged with its paired incoming entry — or
the entry retained unchanged when no incoming entry matched it. -/
theorem mergeOption_reconciliation (hc : String → Bool) (k : String) (old : Value)
    (ex inc : List Value) (hk : hc k = true)
    (hold : getFieldV old k = some (Value.arr ex)) :
    mergeOption hc old (Value.obj [(k, Value.arr inc)]) =
      setFieldV old k (Value.arr (mergedCollection ex inc)) ∧
    ex.length ≤ (mergedCollection ex inc).length ∧
    ∀ (i : ℕ) (e : Value), ex[i]? = some e →
      ∃ item, (mappingToExists ex inc)[i]? = some item ∧ item.exist = some e ∧
        (mergedCollection ex inc)[i]? =
          some (match item.option with
                | some o => zrMerge e o
                | none => e) := by
  refine ⟨?_, ?_, ?_⟩
  · simp [mergeOption, fieldsOf, hk, hold, normalizeToArray]
  · obtain ⟨tail, hmap, -⟩ := mappingToExists_exist ex inc
    have hlen : (mappingToExists ex inc).length = ex.length + tail.length := by
      have := congrArg List.length hmap
      simpa using this
    unfold mergedCollection
    rw [List.length_map, hlen]
    exact Nat.le_add_right _ _
  · intro i e he
    obtain ⟨item, hitem, hexist⟩ := mappingToExists_getElem ex inc i e he
    refine ⟨item, hitem, hexist, ?_⟩
    unfold mergedCollection
    rw [List.getElem?_map, hitem]
    obtain ⟨iex, iopt⟩ := item
    simp only at hexist
    subst hexist
    cases iopt <;> rfl

/-- C6 witness: merging existing `[{id:'x',v:1},{id:'y',v:2}]` with
incoming `[{id:'x',v:9}]` under the `series` collection key yields
`[{id:'x',v:9},{id:'y',v:2}]` — `y` retained, `x` updated, order
preserved. -/
theorem mergeOption_reconciliation_witness :
    mergeOption hcSeries (Value.obj [("series", Value.arr [X1ex, Y2ex])])
        (Value.obj [("series", Value.arr [X9ex])]) =
      Value.obj
        [("series",
          Value.arr
            [Value.obj [("id", Value.str "x"), ("v", Value.num 9)],
             Value.obj [("id", Value.str "y"), ("v", Value.num 2)]])] :=
  (mergeOption_reconciliation hcSeries "series"
      (Value.obj [("series", Value.arr [X1ex, Y2ex])]) [X1ex, Y2ex] [X9ex] rfl
      rfl).1.trans (by rfl)

/-! ## C5: decimal renderings of indices determine the indices

The source compares media selections by comparing the comma-joined
string forms of the index lists, so we prove that this comparison
coincides with equality of the lists. -/

/-- Digit characters are never a comma or a minus sign. -/
theorem digitChar_ne_comma_dash (n : ℕ) :
    Nat.digitChar n ≠ ',' ∧ Nat.digitChar n ≠ '-' := by
  by_cases h16 : n < 16
  · interval_cases n <;> exact ⟨by decide, by decide⟩
  · have hstar : Nat.digitChar n = '*' := by
      unfold Nat.digitChar
      rw [if_neg (by omega : ¬n = 0), if_neg (by omega : ¬n = 1),
        if_neg (by omega : ¬n = 2), if_neg (by omega : ¬n = 3),
        if_neg (by omega : ¬n = 4), if_neg (by omega : ¬n = 5),
        if_neg (by omega : ¬n = 6), if_neg (by omega : ¬n = 7),
        if_neg (by omega : ¬n = 8), if_neg (by omega : ¬n = 9),
        if_neg (by omega : ¬n = 10), if_neg (by omega : ¬n = 11),
        if_neg (by omega : ¬n = 12), if_neg (by omega : ¬n = 13),
        if_neg (by omega : ¬n = 14), if_neg (by omega : ¬n = 15)]
    rw [hstar]
    exact ⟨by decide, by decide⟩

/-- `Nat.toDigitsCore` only prepends digit characters (in particular
neither commas nor minus signs), and prepends at least one when it has
fuel. -/
theorem toDigitsCore_structure :
    ∀ (fuel n : ℕ) (ds : List Char), ∃ pre : List Char,
      Nat.toDigitsCore 10 fuel n ds = pre ++ ds ∧
      (∀ c ∈ pre, c ≠ ',' ∧ c ≠ '-') ∧ (fuel ≠ 0 → pre ≠ []) := by
  intro fuel
  induction fuel with
  | zero => exact fun n ds => ⟨[], rfl, by simp, by simp⟩
  | succ f ih =>
      intro n ds
      have hdef : Nat.toDigitsCore 10 (f + 1) n ds =
          if n / 10 = 0 then Nat.digitChar (n % 10) :: ds
          else Nat.toDigitsCore 10 f (n / 10) (Nat.digitChar (n % 10) :: ds) := rfl
      rw [hdef]
      by_cases h0 : n / 10 = 0
      · rw [if_pos h0]
        refine ⟨[Nat.digitChar (n % 10)], rfl, ?_, by simp⟩
        intro c hc
        rw [List.mem_singleton] at hc
        subst hc
        exact digitChar_ne_comma_dash _
      · rw [if_neg h0]
        obtain ⟨pre, heq, hch, -⟩ := ih (n / 10) (Nat.digitChar (n % 10) :: ds)
        refine ⟨pre ++ [Nat.digitChar (n % 10)], ?_, ?_, by simp⟩
        · rw [heq, List.append_assoc, List.singleton_append]
        · intro c hc
          rcases List.mem_append.mp hc with hc | hc
          · exact hch c hc
          · rw [List.mem_singleton] at hc
            subst hc
            exact digitChar_ne_comma_dash _

/-- The decimal rendering of a natural number is non-empty and
contains neither commas nor minus signs. -/
theorem natRepr_facts (n : ℕ) :
    (Nat.repr n).data ≠ [] ∧ ∀ c ∈ (Nat.repr n).data, c ≠ ',' ∧ c ≠ '-' := by
  have hdata : (Nat.repr n).data = Nat.toDigitsCore 10 (n + 1) n [] := rfl
  obtain ⟨pre, heq, hch, hne⟩ := toDigitsCore_structure (n + 1) n []
  rw [List.append_nil] at heq
  rw [hdata, heq]
  exact ⟨hne n.succ_ne_zero, hch⟩

/-- Decoding a digit character recovers the digit. -/
theorem digitChar_decode (m : ℕ) (h : m < 10) : (Nat.digitChar m).toNat - 48 = m := by
  interval_cases m <;> decide

/-- Folding the decoder over the digits produced by `Nat.toDigitsCore`
recovers the encoded number (given sufficient fuel). -/
theorem toDigitsCore_decode :
    ∀ (fuel n : ℕ), n < fuel → ∀ ds : List Char,
      (Nat.toDigitsCore 10 fuel n ds).foldl decodeAux 0 = ds.foldl decodeAux n := by
  intro fuel
  induction fuel with
  | zero => intro n h; exact absurd h (Nat.not_lt_zero n)
  | succ f ih =>
      intro n h ds
      have hdef : Nat.toDigitsCore 10 (f + 1) n ds =
          if n / 10 = 0 then Nat.digitChar (n % 10) :: ds
          else Nat.toDigitsCore 10 f (n / 10) (Nat.digitChar (n % 10) :: ds) := rfl
      rw [hdef]
      by_cases h0 : n / 10 = 0
      · rw [if_pos h0, List.foldl_cons]
        have hdec : decodeAux 0 (Nat.digitChar (n % 10)) = n := by
          unfold decodeAux
          rw [digitChar_decode (n % 10) (Nat.mod_lt n (by norm_num))]
          omega
        rw [hdec]
      · rw [if_neg h0]
        have hlt : n / 10 < f := by omega
        rw [ih (n / 10) hlt (Nat.digitChar (n % 10) :: ds), List.foldl_cons]
        have hdec : decodeAux (n / 10) (Nat.digitChar (n % 10)) = n := by
          unfold decodeAux
          rw [digitChar_decode (n % 10) (Nat.mod_lt n (by norm_num))]
          omega
        rw [hdec]

/-- Distinct natural numbers have distinct decimal renderings. -/
theorem natRepr_data_inj (a b : ℕ) (h : (Nat.repr a).data = (Nat.repr b).data) :
    a = b := by
  have ha : (Nat.repr a).data = Nat.toDigitsCore 10 (a + 1) a [] := rfl
  have hb : (Nat.repr b).data = Nat.toDigitsCore 10 (b + 1) b [] := rfl
  have hfold := congrArg (List.foldl decodeAux 0) h
  rw [ha, hb, toDigitsCore_decode (a + 1) a (Nat.lt_succ_self a) [],
    toDigitsCore_decode (b + 1) b (Nat.lt_succ_self b) []] at hfold
  simpa using hfold

/-- The underlying characters of an appended string. -/
theorem string_data_append (s t : String) : (s ++ t).data = s.data ++ t.data := by
  obtain ⟨l1⟩ := s
  obtain ⟨l2⟩ := t
  rfl

/-- The decimal rendering of an integer is non-empty and comma-free. -/
theorem intRepr_facts (i : ℤ) :
    (Int.repr i).data ≠ [] ∧ ∀ c ∈ (Int.repr i).data, c ≠ ',' := by
  cases i with
  | ofNat m =>
      obtain ⟨h1, h2⟩ := natRepr_facts m
      exact ⟨h1, fun c hc => (h2 c hc).1⟩
  | negSucc m =>
      have hd : (Int.repr (Int.negSucc m)).data = '-' :: (Nat.repr (m + 1)).data := by
        show (("-" : String) ++ Nat.repr (m + 1)).data = _
        rw [string_data_append]
        rfl
      rw [hd]
      refine ⟨by simp, ?_⟩
      intro c hc
      rcases List.mem_cons.mp hc with hc | hc
      · subst hc; decide
      · exact ((natRepr_facts (m + 1)).2 c hc).1

/-- Distinct integers have distinct decimal renderings. -/
theorem intRepr_data_inj (a b : ℤ) (h : (Int.repr a).data = (Int.repr b).data) :
    a = b := by
  have hneg : ∀ m : ℕ, (Int.repr (Int.negSucc m)).data = '-' :: (Nat.repr (m + 1)).data := by
    intro m
    show (("-" : String) ++ Nat.repr (m + 1)).data = _
    rw [string_data_append]
    rfl
  cases a with
  | ofNat ma =>
      cases b with
      | ofNat mb => exact congrArg Int.ofNat (natRepr_data_inj ma mb h)
      | negSucc mb =>
          exfalso
          rw [hneg mb] at h
          have hmem : '-' ∈ (Nat.repr ma).data := by
            rw [show (Int.repr (Int.ofNat ma)).data = (Nat.repr ma).data from rfl] at h
            rw [h]
            exact List.mem_cons_self _ _
          exact ((natRepr_facts ma).2 '-' hmem).2 rfl
  | negSucc ma =>
      cases b with
      | ofNat mb =>
          exfalso
          rw [hneg ma] at h
          have hmem : '-' ∈ (Nat.repr mb).data := by
            rw [show (Int.repr (Int.ofNat mb)).data = (Nat.repr mb).data from rfl] at h
            rw [← h]
            exact List.mem_cons_self _ _
          exact ((natRepr_facts mb).2 '-' hmem).2 rfl
      | negSucc mb =>
          rw [hneg ma, hneg mb] at h
          have hnat := natRepr_data_inj (ma + 1) (mb + 1) (List.tail_eq_of_cons_eq h)
          exact congrArg Int.negSucc (by omega : ma = mb)

/-- Unfolding `String.intercalate`'s accumulator loop to the character
level. -/
theorem intercalate_go_data (as : List String) :
    ∀ acc : String,
      (String.intercalate.go acc "," as).data = acc.data ++ tailJoin (as.map String.data) := by
  induction as with
  | nil => intro acc; simp [String.intercalate.go, tailJoin]
  | cons a as ih =>
      intro acc
      show (String.intercalate.go (acc ++ "," ++ a) "," as).data = _
      rw [ih (acc ++ "," ++ a), string_data_append, string_data_append]
      simp [tailJoin, List.append_assoc]

/-- `String.intercalate ","` on the character level is `joinData`. -/
theorem intercalate_data (l : List String) :
    (String.intercalate "," l).data = joinData (l.map String.data) := by
  cases l with
  | nil => rfl
  | cons a as =>
      show (String.intercalate.go a "," as).data = _
      rw [intercalate_go_data as a]
      rfl

/-- Two comma-free prefixes followed by comma-led (or empty) tails can
only give the same character list when both parts agree. -/
theorem append_comma_cancel (x : List Char) :
    ∀ (y r1 r2 : List Char),
      (∀ c ∈ x, c ≠ ',') → (∀ c ∈ y, c ≠ ',') →
      (r1 = [] ∨ ∃ t, r1 = ',' :: t) → (r2 = [] ∨ ∃ t, r2 = ',' :: t) →
      x ++ r1 = y ++ r2 → x = y ∧ r1 = r2 := by
  induction x with
  | nil =>
      intro y r1 r2 hx hy h1 h2 he
      cases y with
      | nil => exact ⟨rfl, he⟩
      | cons c ys =>
          exfalso
          rw [List.nil_append, List.cons_append] at he
          rcases h1 with h1 | ⟨t, h1⟩
          · rw [h1] at he; cases he
          · rw [h1] at he
            injection he with hc _
            exact hy c (List.mem_cons_self c ys) hc.symm
  | cons c xs ih =>
      intro y r1 r2 hx hy h1 h2 he
      cases y with
      | nil =>
          exfalso
          rw [List.nil_append, List.cons_append] at he
          rcases h2 with h2 | ⟨t, h2⟩
          · rw [h2] at he; cases he
          · rw [h2] at he
            injection he with hc _
            exact hx c (List.mem_cons_self c xs) hc
      | cons c' ys =>
          rw [List.cons_append, List.cons_append] at he
          injection he with hc ht
          subst hc
          obtain ⟨hxy, hr⟩ := ih ys r1 r2 (fun d hd => hx d (List.mem_cons_of_mem _ hd))
            (fun d hd => hy d (List.mem_cons_of_mem _ hd)) h1 h2 ht
          exact ⟨by rw [hxy], hr⟩

/-- A join tail is empty or starts with a comma. -/
theorem tailJoin_commaLed (l : List (List Char)) :
    tailJoin l = [] ∨ ∃ t, tailJoin l = ',' :: t := by
  cases l with
  | nil => exact Or.inl rfl
  | cons x xs => exact Or.inr ⟨x ++ tailJoin xs, rfl⟩

/-- On non-empty comma-free pieces, the comma join is injective. -/
theorem joinData_inj :
    ∀ as bs : List (List Char),
      (∀ x ∈ as, x ≠ [] ∧ ∀ c ∈ x, c ≠ ',') →
      (∀ x ∈ bs, x ≠ [] ∧ ∀ c ∈ x, c ≠ ',') →
      joinData as = joinData bs → as = bs := by
  intro as
  induction as with
  | nil =>
      intro bs ha hb h
      cases bs with
      | nil => rfl
      | cons y ys =>
          exfalso
          have hnil : y ++ tailJoin ys = [] := h.symm
          exact (hb y (List.mem_cons_self _ _)).1 (List.append_eq_nil.mp hnil).1
  | cons x xs ih =>
      intro bs ha hb h
      cases bs with
      | nil =>
          exfalso
          have hnil : x ++ tailJoin xs = [] := h
          exact (ha x (List.mem_cons_self _ _)).1 (List.append_eq_nil.mp hnil).1
      | cons y ys =>
          obtain ⟨hxy, htail⟩ := append_comma_cancel x y (tailJoin xs) (tailJoin ys)
            (ha x (List.mem_cons_self _ _)).2 (hb y (List.mem_cons_self _ _)).2
            (tailJoin_commaLed xs) (tailJoin_commaLed ys) h
          subst hxy
          cases xs with
          | nil =>
              cases ys with
              | nil => rfl
              | cons v vs => cases htail
          | cons u us =>
              cases ys with
              | nil => cases htail
              | cons v vs =>
                  injection htail with _ hj
                  have hr := ih (v :: vs) (fun t ht => ha t (List.mem_cons_of_mem _ ht))
                    (fun t ht => hb t (List.mem_cons_of_mem _ ht)) hj
                  rw [hr]

/-- The source's string comparison of index lists coincides with
equality of the lists: decimal renderings are non-empty, comma-free and
injective, and the comma join of such pieces is injective. -/
theorem indicesEquals_eq_true_iff (a b : List Int) :
    indicesEquals a b = true ↔ a = b := by
  constructor
  · intro h
    have hs : String.intercalate "," (a.map Int.repr) =
        String.intercalate "," (b.map Int.repr) := eq_of_beq h
    have hd := congrArg String.data hs
    rw [intercalate_data, intercalate_data, List.map_map, List.map_map] at hd
    have hcond : ∀ l : List Int, ∀ x ∈ l.map (String.data ∘ Int.repr),
        x ≠ [] ∧ ∀ c ∈ x, c ≠ ',' := by
      intro l x hx
      obtain ⟨i, -, rfl⟩ := List.mem_map.mp hx
      exact ⟨(intRepr_facts i).1, (intRepr_facts i).2⟩
    have hmaps := joinData_inj _ _ (hcond a) (hcond b) hd
    have hinj : Function.Injective (String.data ∘ Int.repr) := fun i j hij =>
      intRepr_data_inj i j hij
    exact List.map_injective_iff.mpr hinj hmaps
  · intro h
    subst h
    unfold indicesEquals
    exact beq_self_eq_true _

/-- The computed media selection is strictly ascending: matching
indices are collected in document order, and the sentinel set is a
singleton. -/
theorem computeMediaIndices_sorted (mediaList : List Value) (mediaDefault : Option Value)
    (w h : ℚ) : (computeMediaIndices mediaList mediaDefault w h).Pairwise (· < ·) := by
  unfold computeMediaIndices
  dsimp only
  split
  · exact List.pairwise_singleton _ _
  · exact ((List.pairwise_lt_range _).filter _).map Int.ofNat
      (fun a b hab => Int.ofNat_lt.mpr hab)

/-- C5: in every `getMediaOption` evaluation, when the newly computed
selection (matching predicated indices in document order, or the
sentinel `[-1]` when none match and a default exists) is identical to
the previously recorded selection the call returns an empty result,
and when the selection differs it returns (deep copies of) the
fragments of the selected units, in the ascending index order of the
selection. -/
theorem getMediaOption_selection_change (m : OptionManager) (w h : ℚ) :
    (computeMediaIndices m.mediaList m.mediaDefault w h = m.currentMediaIndices →
        (getMediaOption m w h).2 = []) ∧
    (computeMediaIndices m.mediaList m.mediaDefault w h ≠ m.currentMediaIndices →
        (getMediaOption m w h).2 =
          (computeMediaIndices m.mediaList m.mediaDefault w h).map
            (mediaFragment m.mediaList m.mediaDefault)) ∧
    (computeMediaIndices m.mediaList m.mediaDefault w h).Pairwise (· < ·) := by
  refine ⟨?_, ?_, computeMediaIndices_sorted m.mediaList m.mediaDefault w h⟩
  · intro heq
    unfold getMediaOption
    by_cases hcase : (m.mediaList.isEmpty && m.mediaDefault.isNone) = true
    · rw [if_pos hcase]
    · rw [if_neg hcase]
      have hie : indicesEquals (computeMediaIndices m.mediaList m.mediaDefault w h)
          m.currentMediaIndices = true := (indicesEquals_eq_true_iff _ _).mpr heq
      simp [hie]
  · intro hne
    unfold getMediaOption
    by_cases hcase : (m.mediaList.isEmpty && m.mediaDefault.isNone) = true
    · rw [if_pos hcase]
      obtain ⟨hml, hmd⟩ := Bool.and_eq_true _ _ |>.mp hcase
      have hI : computeMediaIndices m.mediaList m.mediaDefault w h = [] := by
        rw [List.isEmpty_iff.mp hml, Option.isNone_iff_eq_none.mp hmd]
        rfl
      rw [hI]
      rfl
    · rw [if_neg hcase]
      by_cases hIe : (computeMediaIndices m.mediaList m.mediaDefault w h).isEmpty = true
      · have hInil := List.isEmpty_iff.mp hIe
        simp [hIe, hInil]
      · have hneq : indicesEquals (computeMediaIndices m.mediaList m.mediaDefault w h)
            m.currentMediaIndices = false := by
          cases hh : indicesEquals (computeMediaIndices m.mediaList m.mediaDefault w h)
              m.currentMediaIndices
          · rfl
          · exact absurd ((indicesEquals_eq_true_iff _ _).mp hh) hne
        simp [hIe, hneq]

/-- C5 witness: with one `minWidth:800` unit and no recorded selection,
an evaluation at width 900 changes the selection and returns the
selected fragments in ascending order. -/
theorem getMediaOption_selection_change_witness :
    (getMediaOption mediaMgrEx 900 600).2 =
      (computeMediaIndices mediaMgrEx.mediaList mediaMgrEx.mediaDefault 900 600).map
        (mediaFragment mediaMgrEx.mediaList mediaMgrEx.mediaDefault) :=
  (getMediaOption_selection_change mediaMgrEx 900 600).2.1 (by decide)

end EChartsOM
